import Mathlib

/-!
Shallow embedding of `finisher/autocompleter.py` (the `DictStorage*` classes,
which concretize the abstract tokenizer / spell checker / autocompleter).

Modelling conventions:
* Python `dict` / `Counter` become association lists `List (String × β)`
  looked up by first matching key; Python `set` becomes a duplicate-free
  `List String`.  Python's set/dict iteration order is unspecified, so the
  model fixes first-insertion order; no settled claim depends on the order
  of equal-score ties, which is the only place the iteration order leaks.
* Python floats become `Rat`; the float literals `1.0` and `0.2` become the
  rationals `1` and `1/5`.
* Fallible paths (`RequiresTraining`, an uncaught `KeyError`, and
  `ZeroDivisionError`) become `Except Err`.
* Python 2 string methods (`lower`, slicing, `split`, `replace`) are
  modelled on the character list `String.data` (ASCII-faithful).
-/

namespace Finisher

attribute [local semireducible] Rat.add Rat.mul Rat.inv Rat.sub

/-- Error outcomes of the Python code: the library's `RequiresTraining`
exception, an uncaught builtin `KeyError`, and an uncaught
`ZeroDivisionError`. -/
inductive Err where
  | requiresTraining
  | keyError
  | zeroDivision
  deriving DecidableEq

instance {ε α : Type} [DecidableEq ε] [DecidableEq α] : DecidableEq (Except ε α) := fun a b =>
  match a, b with
  | .error e, .error e' =>
    match decEq e e' with
    | isTrue h => isTrue (by rw [h])
    | isFalse h => isFalse (fun hc => h (by injection hc))
  | .error _, .ok _ => isFalse (fun hc => Except.noConfusion hc)
  | .ok _, .error _ => isFalse (fun hc => Except.noConfusion hc)
  | .ok v, .ok v' =>
    match decEq v v' with
    | isTrue h => isTrue (by rw [h])
    | isFalse h => isFalse (fun hc => h (by injection hc))

/-- A Python `dict` with `String` keys: an association list, first key wins. -/
abbrev Dict (β : Type) : Type := List (String × β)

/-- `d.get(k)` — value of the first entry whose key is `k`. -/
def lookupS {β : Type} : Dict β → String → Option β
  | [], _ => none
  | (k', v) :: rest, k => if k' = k then some v else lookupS rest k

/-- `d.get(k, dflt)`. -/
def lookupD {β : Type} (d : Dict β) (k : String) (dflt : β) : β :=
  (lookupS d k).getD dflt

/-- Add `v` to the set stored at `k` (Python `set.add` on a `defaultdict(set)`
entry): appended if absent, sets are kept duplicate-free. -/
def addV (vs : List String) (v : String) : List String :=
  if v ∈ vs then vs else vs ++ [v]

/-- Update the set-valued entry at `k` with `set.add v`, creating it if absent. -/
def setAddAt : Dict (List String) → String → String → Dict (List String)
  | [], k, v => [(k, [v])]
  | (k', vs) :: rest, k, v =>
    if k' = k then (k', addV vs v) :: rest else (k', vs) :: setAddAt rest k v

/-- Union a whole set into the entry at `k` (`cache[key] |= value_set`). -/
def unionAt (d : Dict (List String)) (k : String) (vs : List String) : Dict (List String) :=
  vs.foldl (fun d v => setAddAt d k v) d

/-- Add `n` to the count stored at `k` (`cache[k] += n`, creating on KeyError). -/
def addAt : Dict Nat → String → Nat → Dict Nat
  | [], k, n => [(k, n)]
  | (k', m) :: rest, k, n =>
    if k' = k then (k', m + n) :: rest else (k', m) :: addAt rest k n

/-- `Counter[k] += 1`. -/
def incr (d : Dict Nat) (k : String) : Dict Nat :=
  addAt d k 1

/-- `DictStorageTokenizer._store_token_to_full_string` / `_store_n_gram_to_tokens`
merge step for the "already trained" branch: per new entry, union into the cache. -/
def mergeSets (old new : Dict (List String)) : Dict (List String) :=
  new.foldl (fun d p => unionAt d p.1 p.2) old

/-- `DictStorageSpellChecker._store_token_to_count` merge step for the
"already trained" branch: per new entry, add into the cache. -/
def mergeCounts (old new : Dict Nat) : Dict Nat :=
  new.foldl (fun d p => addAt d p.1 p.2) old

/-- Split a character list into the maximal runs of characters NOT satisfying
the separator predicate `p`, dropping empty runs — the behaviour of Python's
`str.split()` (with `p` = whitespace) and of `re.findall` of a
character-class-plus pattern (with `p` = complement of the class). -/
def splitNonRuns (p : Char → Bool) (cs : List Char) : List (List Char) :=
  (cs.foldr
    (fun c acc =>
      if p c then [] :: acc
      else
        match acc with
        | [] => [[c]]
        | g :: gs => (c :: g) :: gs)
    []).filter (· ≠ [])

/-- Python 2 `str.lower()`. -/
def pyLower (s : String) : String :=
  ⟨s.data.map Char.toLower⟩

/-- `AbstractTokenizer._to_alpha_numeric`: keep alphanumerics and spaces
(tested on the original character), lowercase what is kept. -/
def to_alpha_numeric (s : String) : String :=
  ⟨(s.data.filter (fun c => c.isAlphanum || c == ' ')).map Char.toLower⟩

/-- `self._to_alpha_numeric(input_string).split()`. -/
def pyTokens (s : String) : List String :=
  (splitNonRuns Char.isWhitespace (to_alpha_numeric s).data).map (fun cs => ⟨cs⟩)

/-- `AbstractSpellChecker._to_alpha_words_list`: `re.findall('[a-z]+', text.lower())`. -/
def to_alpha_words_list (s : String) : List String :=
  (splitNonRuns (fun c => !('a' ≤ c && c ≤ 'z')) (pyLower s).data).map (fun cs => ⟨cs⟩)

/-- `len(full_string.replace(" ", ""))`. -/
def lenNoSpaces (s : String) : Nat :=
  (s.data.filter (fun c => c ≠ ' ')).length

/-- Python `t[:k]` on a token. -/
def strTake (s : String) (k : Nat) : String :=
  ⟨s.data.take k⟩

/-- The backing store `_cls_cache` of the `DictStorage*` classes.  A field is
`none` when the corresponding top-level key has never been stored (`KeyError`
on direct access), `some d` when it holds dict `d`. -/
structure Cache where
  token_to_full_string : Option (Dict (List String))
  n_gram_to_tokens : Option (Dict (List String))
  token_to_count : Option (Dict Nat)
  deriving DecidableEq

/-- A fresh, never-trained `_cls_cache` (`process_cache = {}`). -/
def emptyCache : Cache :=
  ⟨none, none, none⟩

/-- Constructor keyword arguments of the autocompleter stack, with the
Python default values (`score_threshold=0.2` becomes `1/5`). -/
structure Config where
  min_n_gram_size : Nat := 1
  typo_deviations : Nat := 2
  min_results : Nat := 5
  max_results : Nat := 10
  score_threshold : Rat := 1/5

/-- The all-defaults configuration. -/
def defaultCfg : Config := {}

/-- `DictStorageTokenizer.get_full_strings_for_token`: `RequiresTraining` when
the collection was never stored, else `dict.get` with the caller's default. -/
def get_full_strings_for_token (c : Cache) (token : String)
    (dflt : Option (List String)) : Except Err (Option (List String)) :=
  match c.token_to_full_string with
  | none => .error .requiresTraining
  | some d => .ok ((lookupS d token).orElse (fun _ => dflt))

/-- `DictStorageTokenizer.get_tokens_for_n_gram`. -/
def get_tokens_for_n_gram (c : Cache) (n_gram : String)
    (dflt : Option (List String)) : Except Err (Option (List String)) :=
  match c.n_gram_to_tokens with
  | none => .error .requiresTraining
  | some d => .ok ((lookupS d n_gram).orElse (fun _ => dflt))

/-- `DictStorageSpellChecker.get_count_for_token` (default `0`). -/
def get_count_for_token (c : Cache) (token : String) : Except Err Nat :=
  match c.token_to_count with
  | none => .error .requiresTraining
  | some d => .ok (lookupD d token 0)

/-- `DictStorageSpellChecker.get_counts_for_tokens`.  Note the source reads
`self._cls_cache[attr_key]` unguarded — a missing key is an uncaught
`KeyError` — and raises `RequiresTraining` whenever the stored dict is
falsy (empty), even if it was stored by training. -/
def get_counts_for_tokens (c : Cache) (token_list : List String) :
    Except Err (Dict Nat) :=
  match c.token_to_count with
  | none => .error .keyError
  | some d =>
    if d.isEmpty then .error .requiresTraining
    else .ok (token_list.map (fun t => (t, lookupD d t 0)))

/-- Sizes `xrange(self.min_n_gram_size, len(token) + 1)`. -/
def prefixSizes (minN len : Nat) : List Nat :=
  List.range' minN (len + 1 - minN)

/-- The per-token body of the `AbstractTokenizer.train_from_strings` loop,
acting on the local `n_gram_to_tokens` defaultdict. -/
def nGramAddToken (minN : Nat) (d : Dict (List String)) (token : String) :
    Dict (List String) :=
  let d := if token.length < minN then setAddAt d token token else d
  (prefixSizes minN token.length).foldl (fun d k => setAddAt d (strTake token k) token) d

/-- The local `token_to_full_string` defaultdict built by
`AbstractTokenizer.train_from_strings`. -/
def buildTFS (L : List String) : Dict (List String) :=
  L.foldl (fun d s => (pyTokens s).foldl (fun d t => setAddAt d t (pyLower s)) d) []

/-- The local `n_gram_to_tokens` defaultdict built by
`AbstractTokenizer.train_from_strings`. -/
def buildNGrams (minN : Nat) (L : List String) : Dict (List String) :=
  L.foldl (fun d s => (pyTokens s).foldl (fun d t => nGramAddToken minN d t) d) []

/-- The `Counter` built by `AbstractSpellChecker.train_from_strings`. -/
def buildCounter (L : List String) : Dict Nat :=
  L.foldl (fun d s => (to_alpha_words_list s).foldl (fun d t => incr d t) d) []

/-- `_store_token_to_full_string` / `_store_n_gram_to_tokens` /
`_store_token_to_count`: store the dict outright on first training, merge
afterwards. -/
def storeSets (old : Option (Dict (List String))) (new : Dict (List String)) :
    Dict (List String) :=
  match old with
  | none => new
  | some o => mergeSets o new

/-- Count-valued variant of `storeSets`. -/
def storeCounts (old : Option (Dict Nat)) (new : Dict Nat) : Dict Nat :=
  match old with
  | none => new
  | some o => mergeCounts o new

/-- `AbstractTokenizer.train_from_strings` against the dict storage. -/
def tokenizer_train (cfg : Config) (c : Cache) (L : List String) : Cache :=
  { c with
    token_to_full_string := some (storeSets c.token_to_full_string (buildTFS L))
    n_gram_to_tokens :=
      some (storeSets c.n_gram_to_tokens (buildNGrams cfg.min_n_gram_size L)) }

/-- `AbstractSpellChecker.train_from_strings`: tokenizer training, then the
additive counter store. -/
def train_from_strings (cfg : Config) (c : Cache) (L : List String) : Cache :=
  let c := tokenizer_train cfg c L
  { c with token_to_count := some (storeCounts c.token_to_count (buildCounter L)) }

/-- The 26-letter alphabet of `AbstractSpellChecker._possible_typos`. -/
def alphabet : List Char :=
  "abcdefghijklmnopqrstuvwxyz".data

/-- `splits = [(word[:i], word[i:]) for i in range(len(word) + 1)]`. -/
def typoSplits (w : List Char) : List (List Char × List Char) :=
  (List.range (w.length + 1)).map (fun i => (w.take i, w.drop i))

/-- `AbstractSpellChecker._possible_typos` on the character list. -/
def possible_typos_chars (w : List Char) : List (List Char) :=
  let splits := typoSplits w
  let deletes := splits.filterMap (fun p =>
    match p.2 with
    | [] => none
    | _ :: bs => some (p.1 ++ bs))
  let transposes := splits.filterMap (fun p =>
    match p.2 with
    | b0 :: b1 :: bs => some (p.1 ++ b1 :: b0 :: bs)
    | _ => none)
  let replaces := splits.flatMap (fun p =>
    match p.2 with
    | [] => []
    | _ :: bs => alphabet.map (fun c => p.1 ++ c :: bs))
  let inserts := splits.flatMap (fun p => alphabet.map (fun c => p.1 ++ c :: p.2))
  deletes ++ transposes ++ replaces ++ inserts

/-- `AbstractSpellChecker._possible_typos` (the trailing `set(...)` becomes
`dedup`). -/
def possible_typos (w : String) : List String :=
  ((possible_typos_chars w.data).map (fun cs => (⟨cs⟩ : String))).dedup

/-- The accumulated `all_deviations` set of `AbstractSpellChecker._extended_typos`
after the `typo_deviations - 1` extra rounds. -/
def allDeviations (typoDeviations : Nat) (w : String) : List String :=
  (List.range (typoDeviations - 1)).foldl
    (fun acc _ =>
      let devs := (acc.2.flatMap possible_typos).dedup
      ((acc.1 ++ devs).dedup, devs))
    ((possible_typos w).dedup, possible_typos w)
  |>.1

/-- `AbstractSpellChecker._extended_typos`. -/
def extended_typos (cfg : Config) (c : Cache) (w : String) :
    Except Err (List String) := do
  let all := allDeviations cfg.typo_deviations w
  let deviation_to_count ← get_counts_for_tokens c all
  pure (all.filter (fun dev => lookupD deviation_to_count dev 0 ≠ 0))

/-- `AbstractSpellChecker._words_that_exist`. -/
def words_that_exist (c : Cache) : List String → Except Err (List String)
  | [] => .ok []
  | w :: ws => do
    let cnt ← get_count_for_token c w
    let rest ← words_that_exist c ws
    pure (if cnt ≠ 0 then w :: rest else rest)

/-- Python `max(xs, key=key)`: the first element attaining the maximum. -/
def pyMaxBy (key : String → Nat) : List String → Option String
  | [] => none
  | x :: xs => some (xs.foldl (fun best y => if key best < key y then y else best) x)

/-- `AbstractSpellChecker.correct_token`. -/
def correct_token (cfg : Config) (c : Cache) (token : String) : Except Err String := do
  let t := pyLower token
  let r ← get_tokens_for_n_gram c t none
  if r.isSome then
    pure t
  else
    let s1 ← words_that_exist c [t]
    let cands ←
      if s1 ≠ [] then pure s1
      else do
        let s2 ← words_that_exist c (possible_typos t)
        if s2 ≠ [] then pure s2
        else do
          let s3 ← extended_typos cfg c t
          if s3 ≠ [] then pure s3 else pure [t]
    match c.token_to_count with
    | none => .error .requiresTraining
    | some d => pure ((pyMaxBy (fun w => lookupD d w 0) cands).getD t)

/-- `AbstractAutoCompleter._get_real_tokens_from_possible_n_grams`:
the union (first-occurrence order) of the prefix-index hits. -/
def get_real_tokens (c : Cache) (tokens : List String) : Except Err (List String) :=
  tokens.foldlM
    (fun acc t => do
      let r ← get_tokens_for_n_gram c t (some [])
      pure (acc ++ (r.getD []).filter (fun x => decide (x ∉ acc))))
    []

/-- `AbstractAutoCompleter._get_scored_strings_uncollapsed`; a full string
with no non-space characters would be a `ZeroDivisionError`. -/
def scored_uncollapsed (c : Cache) (real_tokens : List String) :
    Except Err (List (String × Rat)) :=
  real_tokens.foldlM
    (fun acc t => do
      let fsOpt ← get_full_strings_for_token c t (some [])
      let pairs ← (fsOpt.getD []).mapM (fun s =>
        if lenNoSpaces s = 0 then Except.error Err.zeroDivision
        else pure (s, (t.length : Rat) / (lenNoSpaces s : Rat)))
      pure (acc ++ pairs))
    []

/-- The two `defaultdict(int)` accumulators of
`AbstractAutoCompleter._combined_scores`, collapsed into one assoc list
`full_string → (summed score, occurrence count)` in first-occurrence order. -/
def collapsePairs (pairs : List (String × Rat)) : List (String × (Rat × Nat)) :=
  pairs.foldl
    (fun d p =>
      match lookupS d p.1 with
      | none => d ++ [(p.1, (p.2, 1))]
      | some v =>
        d.map (fun q => if q.1 = p.1 then (q.1, (v.1 + p.2, v.2 + 1)) else q))
    []

/-- `AbstractAutoCompleter._combined_scores`: multiply each summed score by
`occurrences / num_tokens`; with zero input tokens and a nonempty map this is
a `ZeroDivisionError`. -/
def combined_scores (pairs : List (String × Rat)) (numTokens : Nat) :
    Except Err (List (String × Rat)) :=
  (collapsePairs pairs).mapM (fun p =>
    if numTokens = 0 then Except.error Err.zeroDivision
    else pure (p.1, p.2.1 * ((p.2.2 : Rat) / (numTokens : Rat))))

/-- The score-sorted collapsed candidate list of
`AbstractAutoCompleter.guess_full_strings` (the state just before
`_filtered_results`): `items()` then a stable sort by score, descending. -/
def sortedCandidates (c : Cache) (tokens : List String) :
    Except Err (List (String × Rat)) := do
  let real ← get_real_tokens c tokens
  let pairs ← scored_uncollapsed c real
  let collapsed ← combined_scores pairs tokens.length
  pure (List.insertionSort (fun a b => b.2 ≤ a.2) collapsed)

/-- The exact-match branch of `AbstractAutoCompleter._filtered_results`:
when the top score is exactly `1.0`, drop every candidate shorter than the
top entry. -/
def exactMatchFiltered (fss : List (String × Rat)) : List (String × Rat) :=
  match fss with
  | [] => fss
  | p0 :: _ =>
    if p0.2 = 1 then fss.filter (fun p => decide (p0.1.length ≤ p.1.length)) else fss

/-- `AbstractAutoCompleter._filtered_results`. -/
def filtered_results (cfg : Config) (fss : List (String × Rat)) : List String :=
  let max_possibles := fss.take cfg.max_results
  let fss2 := exactMatchFiltered fss
  let possibles_within_thresh := fss2.filter (fun p => decide (cfg.score_threshold ≤ p.2))
  let min_possibles :=
    if cfg.min_results < possibles_within_thresh.length then
      possibles_within_thresh.take cfg.max_results
    else
      max_possibles.take cfg.min_results
  min_possibles.map Prod.fst

/-- `AbstractAutoCompleter.guess_full_strings`. -/
def guess_full_strings (cfg : Config) (c : Cache) (tokens : List String) :
    Except Err (List String) := do
  let fss ← sortedCandidates c tokens
  pure (filtered_results cfg fss)

/-- The StringIndex (token → lowercased source strings) held by a cache. -/
def stringIndex (c : Cache) : Dict (List String) :=
  c.token_to_full_string.getD []

/-- The PrefixIndex (n-gram → tokens) held by a cache. -/
def prefixIndex (c : Cache) : Dict (List String) :=
  c.n_gram_to_tokens.getD []

/-- The FrequencyIndex (token → count) held by a cache. -/
def frequencyIndex (c : Cache) : Dict Nat :=
  c.token_to_count.getD []

/-- The key list of a dict. -/
def keys {β : Type} (d : Dict β) : List String :=
  d.map Prod.fst

/-- The training corpus of the spec's concrete scenarios A and B. -/
def corpusA : List String :=
  ["hey there world", "hello Commrades", "hello world"]

/-- A model trained on `corpusA` from a fresh cache. -/
def cacheA : Cache :=
  train_from_strings defaultCfg emptyCache corpusA

/-- A model trained on a corpus with no alphabetic word: its frequency
index is stored, but empty. -/
def cache99 : Cache :=
  train_from_strings defaultCfg emptyCache ["99"]

/-- The prefix index stored in `cacheA`, as the literal stored term. -/
def dictNGramsA : Dict (List String) :=
  storeSets emptyCache.n_gram_to_tokens (buildNGrams defaultCfg.min_n_gram_size corpusA)

/-- The frequency index stored in `cacheA`, as the literal stored term. -/
def dictCountsA : Dict Nat :=
  storeCounts (tokenizer_train defaultCfg emptyCache corpusA).token_to_count
    (buildCounter corpusA)

/-- Spec-side operation: `s` deletes one character of `w`. -/
def IsDeleteOf (w s : List Char) : Prop :=
  ∃ a c b, w = a ++ c :: b ∧ s = a ++ b

/-- Spec-side operation: `s` transposes two adjacent characters of `w`. -/
def IsTransposeOf (w s : List Char) : Prop :=
  ∃ a c₁ c₂ b, w = a ++ c₁ :: c₂ :: b ∧ s = a ++ c₂ :: c₁ :: b

/-- Spec-side operation: `s` substitutes one character of `w` by a letter
of the 26-letter alphabet. -/
def IsReplaceOf (w s : List Char) : Prop :=
  ∃ a c c' b, w = a ++ c :: b ∧ s = a ++ c' :: b ∧ c' ∈ alphabet

/-- Spec-side operation: `s` inserts one alphabet letter into `w`. -/
def IsInsertOf (w s : List Char) : Prop :=
  ∃ a c b, w = a ++ b ∧ s = a ++ c :: b ∧ c ∈ alphabet

/-- `s` arises from `w` by one of the four claimed operations. -/
def OneEditOp (w s : String) : Prop :=
  IsDeleteOf w.data s.data ∨ IsTransposeOf w.data s.data ∨
    IsReplaceOf w.data s.data ∨ IsInsertOf w.data s.data

/-- "Edit distance exactly 1" in the claim's own terms: one operation away,
and not the word itself (distance 0). -/
def EditDistExactlyOne (w s : String) : Prop :=
  OneEditOp w s ∧ s ≠ w

/-- Spec-side C4 stage 1: the token itself, if it has nonzero frequency. -/
def c4Stage1 (d : Dict Nat) (t : String) : List String :=
  [t].filter (fun w => decide (lookupD d w 0 ≠ 0))

/-- Spec-side C4 stage 2: edit-distance-1 candidates with nonzero frequency. -/
def c4Stage2 (d : Dict Nat) (t : String) : List String :=
  (possible_typos t).filter (fun w => decide (lookupD d w 0 ≠ 0))

/-- Spec-side C4 stage 3: the accumulated multi-round candidate frontier
filtered to nonzero frequency. -/
def c4Stage3 (cfg : Config) (d : Dict Nat) (t : String) : List String :=
  (allDeviations cfg.typo_deviations t).filter (fun w => decide (lookupD d w 0 ≠ 0))

/-- Spec-side C4 candidate pool: the first nonempty stage, in order, with the
original token as final fallback. -/
def c4Cands (cfg : Config) (d : Dict Nat) (t : String) : List String :=
  if c4Stage1 d t ≠ [] then c4Stage1 d t
  else if c4Stage2 d t ≠ [] then c4Stage2 d t
  else if c4Stage3 cfg d t ≠ [] then c4Stage3 cfg d t
  else [t]

theorem foldl_pres {α δ : Type} (f : δ → α → δ) (P : δ → Prop)
    (hp : ∀ d a, P d → P (f d a)) :
    ∀ (l : List α) (d : δ), P d → P (l.foldl f d) := by
  intro l
  induction l with
  | nil => intro d h; exact h
  | cons a l ih => intro d h; exact ih (f d a) (hp d a h)

theorem foldl_estab {α δ : Type} (f : δ → α → δ) (P : δ → Prop)
    (hp : ∀ d a, P d → P (f d a)) (e : α) (he : ∀ d, P (f d e)) :
    ∀ (l : List α) (d : δ), e ∈ l → P (l.foldl f d) := by
  intro l
  induction l with
  | nil => intro d h; cases h
  | cons a l ih =>
    intro d h
    rcases List.mem_cons.mp h with h | h
    · subst h; exact foldl_pres f P hp l (f d e) (he d)
    · exact ih (f d a) h

@[simp] theorem lookupS_nil {β : Type} (k : String) : lookupS ([] : Dict β) k = none := rfl

theorem lookupS_cons {β : Type} (k' k : String) (v : β) (d : Dict β) :
    lookupS ((k', v) :: d) k = if k' = k then some v else lookupS d k := rfl

theorem lookupD_cons {β : Type} (k' k : String) (v : β) (d : Dict β) (dflt : β) :
    lookupD ((k', v) :: d) k dflt = if k' = k then v else lookupD d k dflt := by
  unfold lookupD
  rw [lookupS_cons]
  by_cases h : k' = k <;> simp [h]

theorem lookupS_mem {β : Type} {d : Dict β} {k : String} {v : β}
    (h : lookupS d k = some v) : (k, v) ∈ d := by
  induction d with
  | nil => simp at h
  | cons p d ih =>
    obtain ⟨k', v'⟩ := p
    rw [lookupS_cons] at h
    by_cases hk : k' = k
    · subst hk
      rw [if_pos rfl] at h
      injection h with h
      subst h
      exact List.mem_cons_self _ _
    · rw [if_neg hk] at h
      exact List.mem_cons_of_mem _ (ih h)

theorem lookupS_eq_none_of_not_mem_keys {β : Type} {d : Dict β} {k : String}
    (h : k ∉ keys d) : lookupS d k = none := by
  induction d with
  | nil => rfl
  | cons p d ih =>
    obtain ⟨k', v'⟩ := p
    simp only [keys, List.map_cons, List.mem_cons, not_or] at h
    rw [lookupS_cons, if_neg (fun he => h.1 he.symm), ih (by simpa [keys] using h.2)]

theorem mem_addV {vs : List String} {v x : String} :
    x ∈ addV vs v ↔ x ∈ vs ∨ x = v := by
  unfold addV
  by_cases h : v ∈ vs
  · rw [if_pos h]
    constructor
    · exact Or.inl
    · rintro (hx | rfl) <;> [exact hx; exact h]
  · rw [if_neg h]
    simp

theorem setAddAt_cons_eq {d : Dict (List String)} {k' k v : String}
    {vs : List String} (hk : k' = k) :
    setAddAt ((k', vs) :: d) k v = (k', addV vs v) :: d := by
  simp [setAddAt, hk]

theorem setAddAt_cons_ne {d : Dict (List String)} {k' k v : String}
    {vs : List String} (hk : ¬ k' = k) :
    setAddAt ((k', vs) :: d) k v = (k', vs) :: setAddAt d k v := by
  simp [setAddAt, hk]

theorem lookupS_setAddAt_self (d : Dict (List String)) (k v : String) :
    lookupS (setAddAt d k v) k = some (addV (lookupD d k []) v) := by
  induction d with
  | nil => simp [setAddAt, lookupS_cons, lookupD, addV]
  | cons p d ih =>
    obtain ⟨k', vs⟩ := p
    by_cases hk : k' = k
    · rw [setAddAt_cons_eq hk, lookupS_cons, if_pos hk, lookupD_cons, if_pos hk]
    · rw [setAddAt_cons_ne hk, lookupS_cons, if_neg hk, ih, lookupD_cons, if_neg hk]

theorem lookupS_setAddAt_ne (d : Dict (List String)) {k j : String} (v : String)
    (h : j ≠ k) : lookupS (setAddAt d k v) j = lookupS d j := by
  induction d with
  | nil =>
    have hkj : ¬ (k = j) := fun he => h he.symm
    simp [setAddAt, lookupS_cons, hkj]
  | cons p d ih =>
    obtain ⟨k', vs⟩ := p
    by_cases hk : k' = k
    · have hkj : ¬ (k' = j) := fun he => h (hk ▸ he).symm
      rw [setAddAt_cons_eq hk, lookupS_cons, if_neg hkj, lookupS_cons, if_neg hkj]
    · rw [setAddAt_cons_ne hk, lookupS_cons, lookupS_cons]
      by_cases hj : k' = j
      · rw [if_pos hj, if_pos hj]
      · rw [if_neg hj, if_neg hj, ih]

theorem mem_lookupD_setAddAt {d : Dict (List String)} {k v j x : String} :
    x ∈ lookupD (setAddAt d k v) j [] ↔
      x ∈ lookupD d j [] ∨ (j = k ∧ x = v) := by
  by_cases hj : j = k
  · subst hj
    simp only [lookupD, lookupS_setAddAt_self, Option.getD_some, mem_addV, true_and]
  · rw [lookupD, lookupS_setAddAt_ne d v hj]
    simp [lookupD, hj]

theorem mem_lookupD_unionAt {d : Dict (List String)} {k j x : String}
    {vs : List String} :
    x ∈ lookupD (unionAt d k vs) j [] ↔
      x ∈ lookupD d j [] ∨ (j = k ∧ x ∈ vs) := by
  induction vs generalizing d with
  | nil => simp [unionAt]
  | cons v vs ih =>
    show x ∈ lookupD (unionAt (setAddAt d k v) k vs) j [] ↔ _
    rw [ih, mem_lookupD_setAddAt]
    constructor
    · rintro ((h | ⟨rfl, rfl⟩) | ⟨rfl, h⟩)
      · exact Or.inl h
      · exact Or.inr ⟨rfl, List.mem_cons_self _ _⟩
      · exact Or.inr ⟨rfl, List.mem_cons_of_mem _ h⟩
    · rintro (h | ⟨rfl, h⟩)
      · exact Or.inl (Or.inl h)
      · rcases List.mem_cons.mp h with rfl | h
        · exact Or.inl (Or.inr ⟨rfl, rfl⟩)
        · exact Or.inr ⟨rfl, h⟩

theorem addAt_cons_eq {d : Dict Nat} {k' k : String} {m n : Nat} (hk : k' = k) :
    addAt ((k', m) :: d) k n = (k', m + n) :: d := by
  simp [addAt, hk]

theorem addAt_cons_ne {d : Dict Nat} {k' k : String} {m n : Nat} (hk : ¬ k' = k) :
    addAt ((k', m) :: d) k n = (k', m) :: addAt d k n := by
  simp [addAt, hk]

theorem lookupD_addAt_self (d : Dict Nat) (k : String) (n : Nat) :
    lookupD (addAt d k n) k 0 = lookupD d k 0 + n := by
  induction d with
  | nil => simp [addAt, lookupD, lookupS_cons]
  | cons p d ih =>
    obtain ⟨k', m⟩ := p
    by_cases hk : k' = k
    · rw [addAt_cons_eq hk, lookupD_cons, if_pos hk, lookupD_cons, if_pos hk]
    · rw [addAt_cons_ne hk, lookupD_cons, if_neg hk, ih, lookupD_cons, if_neg hk]

theorem lookupD_addAt_ne (d : Dict Nat) {k j : String} (n : Nat) (h : j ≠ k) :
    lookupD (addAt d k n) j 0 = lookupD d j 0 := by
  induction d with
  | nil =>
    have hkj : ¬ (k = j) := fun he => h he.symm
    simp [addAt, lookupD, lookupS_cons, hkj]
  | cons p d ih =>
    obtain ⟨k', m⟩ := p
    by_cases hk : k' = k
    · have hkj : ¬ (k' = j) := fun he => h (hk ▸ he).symm
      rw [addAt_cons_eq hk, lookupD_cons, if_neg hkj, lookupD_cons, if_neg hkj]
    · rw [addAt_cons_ne hk, lookupD_cons, lookupD_cons]
      by_cases hj : k' = j
      · rw [if_pos hj, if_pos hj]
      · rw [if_neg hj, if_neg hj, ih]

theorem mem_keys_setAddAt {d : Dict (List String)} {k v j : String}
    (h : j ∈ keys (setAddAt d k v)) : j ∈ keys d ∨ j = k := by
  induction d with
  | nil => simpa [setAddAt, keys] using h
  | cons p d ih =>
    obtain ⟨k', vs⟩ := p
    by_cases hk : k' = k
    · rw [setAddAt_cons_eq hk] at h
      simp only [keys, List.map_cons, List.mem_cons] at h ⊢
      exact Or.inl h
    · rw [setAddAt_cons_ne hk] at h
      simp only [keys, List.map_cons, List.mem_cons] at h ⊢
      rcases h with h | h
      · exact Or.inl (Or.inl h)
      · rcases ih h with h | h
        · exact Or.inl (Or.inr h)
        · exact Or.inr h

theorem mem_keys_addAt {d : Dict Nat} {k j : String} {n : Nat}
    (h : j ∈ keys (addAt d k n)) : j ∈ keys d ∨ j = k := by
  induction d with
  | nil => simpa [addAt, keys] using h
  | cons p d ih =>
    obtain ⟨k', m⟩ := p
    by_cases hk : k' = k
    · rw [addAt_cons_eq hk] at h
      simp only [keys, List.map_cons, List.mem_cons] at h ⊢
      exact Or.inl h
    · rw [addAt_cons_ne hk] at h
      simp only [keys, List.map_cons, List.mem_cons] at h ⊢
      rcases h with h | h
      · exact Or.inl (Or.inl h)
      · rcases ih h with h | h
        · exact Or.inl (Or.inr h)
        · exact Or.inr h

theorem nodup_keys_setAddAt {d : Dict (List String)} {k v : String}
    (h : (keys d).Nodup) : (keys (setAddAt d k v)).Nodup := by
  induction d with
  | nil => simp [setAddAt, keys]
  | cons p d ih =>
    obtain ⟨k', vs⟩ := p
    simp only [keys, List.map_cons, List.nodup_cons] at h
    by_cases hk : k' = k
    · rw [setAddAt_cons_eq hk]
      simpa [keys, List.nodup_cons] using h
    · rw [setAddAt_cons_ne hk]
      simp only [keys, List.map_cons, List.nodup_cons]
      refine ⟨fun hm => ?_, ih h.2⟩
      rcases mem_keys_setAddAt hm with hm | hm
      · exact h.1 hm
      · exact hk hm

theorem nodup_keys_addAt {d : Dict Nat} {k : String} {n : Nat}
    (h : (keys d).Nodup) : (keys (addAt d k n)).Nodup := by
  induction d with
  | nil => simp [addAt, keys]
  | cons p d ih =>
    obtain ⟨k', m⟩ := p
    simp only [keys, List.map_cons, List.nodup_cons] at h
    by_cases hk : k' = k
    · rw [addAt_cons_eq hk]
      simpa [keys, List.nodup_cons] using h
    · rw [addAt_cons_ne hk]
      simp only [keys, List.map_cons, List.nodup_cons]
      refine ⟨fun hm => ?_, ih h.2⟩
      rcases mem_keys_addAt hm with hm | hm
      · exact h.1 hm
      · exact hk hm

theorem nodup_keys_buildTFS (L : List String) : (keys (buildTFS L)).Nodup := by
  unfold buildTFS
  refine foldl_pres _ (fun d => (keys d).Nodup) (fun d s h => ?_) L [] (by simp [keys])
  exact foldl_pres _ (fun d => (keys d).Nodup)
    (fun d t h => nodup_keys_setAddAt h) (pyTokens s) d h

theorem nodup_keys_nGramAddToken {minN : Nat} {d : Dict (List String)} {t : String}
    (h : (keys d).Nodup) : (keys (nGramAddToken minN d t)).Nodup := by
  unfold nGramAddToken
  refine foldl_pres _ (fun d => (keys d).Nodup)
    (fun d k h => nodup_keys_setAddAt h) _ _ ?_
  by_cases hlt : t.length < minN
  · simpa [hlt] using nodup_keys_setAddAt h
  · simpa [hlt] using h

theorem nodup_keys_buildNGrams (minN : Nat) (L : List String) :
    (keys (buildNGrams minN L)).Nodup := by
  unfold buildNGrams
  refine foldl_pres _ (fun d => (keys d).Nodup) (fun d s h => ?_) L [] (by simp [keys])
  exact foldl_pres _ (fun d => (keys d).Nodup)
    (fun d t h => nodup_keys_nGramAddToken h) (pyTokens s) d h

theorem nodup_keys_buildCounter (L : List String) : (keys (buildCounter L)).Nodup := by
  unfold buildCounter
  refine foldl_pres _ (fun d => (keys d).Nodup) (fun d s h => ?_) L [] (by simp [keys])
  exact foldl_pres _ (fun d => (keys d).Nodup)
    (fun d t h => nodup_keys_addAt h) (to_alpha_words_list s) d h

theorem mem_mergeSets_left {old new : Dict (List String)} {j x : String}
    (h : x ∈ lookupD old j []) : x ∈ lookupD (mergeSets old new) j [] := by
  unfold mergeSets
  refine foldl_pres _ (fun d => x ∈ lookupD d j []) (fun d p hm => ?_) new old h
  exact foldl_pres _ (fun d => x ∈ lookupD d j [])
    (fun d v hm => mem_lookupD_setAddAt.mpr (Or.inl hm)) p.2 d hm

theorem mem_lookupD_elim {d : Dict (List String)} {j x : String}
    (h : x ∈ lookupD d j []) : ∃ vs, lookupS d j = some vs ∧ x ∈ vs := by
  unfold lookupD at h
  cases hl : lookupS d j with
  | none => rw [hl] at h; cases h
  | some vs => rw [hl] at h; exact ⟨vs, rfl, h⟩

theorem mem_mergeSets_right {old new : Dict (List String)} {j x : String}
    (h : x ∈ lookupD new j []) : x ∈ lookupD (mergeSets old new) j [] := by
  obtain ⟨vs, hl, hx⟩ := mem_lookupD_elim h
  unfold mergeSets
  refine foldl_estab _ (fun d => x ∈ lookupD d j []) (fun d p hm => ?_) (j, vs)
    (fun d => ?_) new old (lookupS_mem hl)
  · exact foldl_pres _ (fun d => x ∈ lookupD d j [])
      (fun d v hm => mem_lookupD_setAddAt.mpr (Or.inl hm)) p.2 d hm
  · exact mem_lookupD_unionAt.mpr (Or.inr ⟨rfl, hx⟩)

theorem mem_mergeSets_iff {old new : Dict (List String)} {j x : String}
    (hnd : (keys new).Nodup) :
    x ∈ lookupD (mergeSets old new) j [] ↔
      x ∈ lookupD old j [] ∨ x ∈ lookupD new j [] := by
  induction new generalizing old with
  | nil => simp [mergeSets, lookupD]
  | cons p new ih =>
    obtain ⟨k, vs⟩ := p
    simp only [keys, List.map_cons, List.nodup_cons] at hnd
    show x ∈ lookupD (mergeSets (unionAt old k vs) new) j [] ↔ _
    rw [ih hnd.2, mem_lookupD_unionAt, lookupD_cons]
    by_cases hj : k = j
    · subst hj
      have : lookupD new k [] = [] := by
        rw [lookupD, lookupS_eq_none_of_not_mem_keys hnd.1]
        rfl
      rw [this, if_pos rfl]
      tauto
    · rw [if_neg hj]
      have : ¬ (j = k) := fun he => hj he.symm
      tauto

theorem lookupD_mergeCounts {old new : Dict Nat} {t : String}
    (hnd : (keys new).Nodup) :
    lookupD (mergeCounts old new) t 0 = lookupD old t 0 + lookupD new t 0 := by
  induction new generalizing old with
  | nil => simp [mergeCounts, lookupD]
  | cons p new ih =>
    obtain ⟨k, n⟩ := p
    simp only [keys, List.map_cons, List.nodup_cons] at hnd
    show lookupD (mergeCounts (addAt old k n) new) t 0 = _
    rw [ih hnd.2, lookupD_cons]
    by_cases ht : t = k
    · subst ht
      have : lookupD new t 0 = 0 := by
        rw [lookupD, lookupS_eq_none_of_not_mem_keys hnd.1]
        rfl
      rw [this, lookupD_addAt_self, if_pos rfl]
      omega
    · rw [lookupD_addAt_ne _ _ ht, if_neg (fun he => ht he.symm)]

theorem lookupD_foldl_incr (ws : List String) (d : Dict Nat) (t : String) :
    lookupD (ws.foldl (fun d w => incr d w) d) t 0 = lookupD d t 0 + ws.count t := by
  induction ws generalizing d with
  | nil => simp
  | cons w ws ih =>
    show lookupD (ws.foldl _ (incr d w)) t 0 = _
    rw [ih]
    unfold incr
    by_cases hw : t = w
    · subst hw
      rw [lookupD_addAt_self, List.count_cons_self]
      omega
    · rw [lookupD_addAt_ne _ _ hw, List.count_cons_of_ne hw]

theorem lookupD_buildCounter (L : List String) (t : String) :
    lookupD (buildCounter L) t 0 = ((L.flatMap to_alpha_words_list).count t) := by
  suffices h : ∀ d, lookupD (L.foldl (fun d s => (to_alpha_words_list s).foldl
      (fun d t => incr d t) d) d) t 0 = lookupD d t 0 + (L.flatMap to_alpha_words_list).count t by
    simpa [buildCounter, lookupD] using h []
  induction L with
  | nil => simp
  | cons s L ih =>
    intro d
    show lookupD (L.foldl _ ((to_alpha_words_list s).foldl _ d)) t 0 = _
    rw [ih, lookupD_foldl_incr]
    simp [List.count_append]
    omega

theorem mem_lookupD_foldl_setAddAt_fixval {ts : List String} {v j x : String} :
    ∀ d : Dict (List String),
      x ∈ lookupD (ts.foldl (fun d t => setAddAt d t v) d) j [] ↔
        x ∈ lookupD d j [] ∨ (j ∈ ts ∧ x = v) := by
  induction ts with
  | nil => simp
  | cons t ts ih =>
    intro d
    show x ∈ lookupD (ts.foldl _ (setAddAt d t v)) j [] ↔ _
    rw [ih, mem_lookupD_setAddAt]
    simp only [List.mem_cons]
    constructor
    · rintro ((h | ⟨rfl, rfl⟩) | ⟨h, rfl⟩)
      · exact Or.inl h
      · exact Or.inr ⟨Or.inl rfl, rfl⟩
      · exact Or.inr ⟨Or.inr h, rfl⟩
    · rintro (h | ⟨(rfl | h), rfl⟩)
      · exact Or.inl (Or.inl h)
      · exact Or.inl (Or.inr ⟨rfl, rfl⟩)
      · exact Or.inr ⟨h, rfl⟩

theorem mem_buildTFS_iff {L : List String} {j x : String} :
    x ∈ lookupD (buildTFS L) j [] ↔ ∃ s, s ∈ L ∧ j ∈ pyTokens s ∧ x = pyLower s := by
  suffices h : ∀ d, x ∈ lookupD (L.foldl (fun d s => (pyTokens s).foldl
      (fun d t => setAddAt d t (pyLower s)) d) d) j [] ↔
      x ∈ lookupD d j [] ∨ ∃ s, s ∈ L ∧ j ∈ pyTokens s ∧ x = pyLower s by
    simpa [buildTFS, lookupD] using h []
  induction L with
  | nil => simp
  | cons s L ih =>
    intro d
    show x ∈ lookupD (L.foldl _ ((pyTokens s).foldl _ d)) j [] ↔ _
    rw [ih, mem_lookupD_foldl_setAddAt_fixval]
    constructor
    · rintro ((h | ⟨hj, rfl⟩) | ⟨s', hs', hj, rfl⟩)
      · exact Or.inl h
      · exact Or.inr ⟨s, List.mem_cons_self _ _, hj, rfl⟩
      · exact Or.inr ⟨s', List.mem_cons_of_mem _ hs', hj, rfl⟩
    · rintro (h | ⟨s', hs', hj, rfl⟩)
      · exact Or.inl (Or.inl h)
      · rcases List.mem_cons.mp hs' with rfl | hs'
        · exact Or.inl (Or.inr ⟨hj, rfl⟩)
        · exact Or.inr ⟨s', hs', hj, rfl⟩

theorem mem_prefixSizes {minN len k : Nat} :
    k ∈ prefixSizes minN len ↔ minN ≤ k ∧ k ≤ len := by
  rw [prefixSizes, List.mem_range'_1]
  omega

theorem mem_lookupD_setAddAt_mono {d : Dict (List String)} {k v j x : String}
    (h : x ∈ lookupD d j []) : x ∈ lookupD (setAddAt d k v) j [] :=
  mem_lookupD_setAddAt.mpr (Or.inl h)

theorem mem_lookupD_setAddAt_self {d : Dict (List String)} {k v : String} :
    v ∈ lookupD (setAddAt d k v) k [] :=
  mem_lookupD_setAddAt.mpr (Or.inr ⟨rfl, rfl⟩)

theorem mem_lookupD_nGramAddToken_mono {minN : Nat} {d : Dict (List String)}
    {t j x : String} (h : x ∈ lookupD d j []) :
    x ∈ lookupD (nGramAddToken minN d t) j [] := by
  unfold nGramAddToken
  refine foldl_pres _ (fun d => x ∈ lookupD d j [])
    (fun d k h => mem_lookupD_setAddAt_mono h) _ _ ?_
  by_cases hlt : t.length < minN
  · simpa [hlt] using mem_lookupD_setAddAt_mono h
  · simpa [hlt] using h

theorem mem_nGramAddToken_take {minN : Nat} {d : Dict (List String)} {t : String}
    {k : Nat} (h1 : minN ≤ k) (h2 : k ≤ t.length) :
    t ∈ lookupD (nGramAddToken minN d t) (strTake t k) [] := by
  unfold nGramAddToken
  refine foldl_estab _ (fun d => t ∈ lookupD d (strTake t k) [])
    (fun d k' h => mem_lookupD_setAddAt_mono h) k (fun d => mem_lookupD_setAddAt_self)
    _ _ (mem_prefixSizes.mpr ⟨h1, h2⟩)

theorem mem_nGramAddToken_self {minN : Nat} {d : Dict (List String)} {t : String}
    (h : t.length < minN) : t ∈ lookupD (nGramAddToken minN d t) t [] := by
  unfold nGramAddToken
  refine foldl_pres _ (fun d => t ∈ lookupD d t [])
    (fun d k' h => mem_lookupD_setAddAt_mono h) _ _ ?_
  simpa [h] using (@mem_lookupD_setAddAt_self d t t)

theorem mem_buildNGrams_of_estab {minN : Nat} {L : List String} {s t : String}
    {key : String} (hs : s ∈ L) (ht : t ∈ pyTokens s)
    (he : ∀ d, t ∈ lookupD (nGramAddToken minN d t) key []) :
    t ∈ lookupD (buildNGrams minN L) key [] := by
  unfold buildNGrams
  refine foldl_estab _ (fun d => t ∈ lookupD d key []) (fun d s' h => ?_) s
    (fun d => ?_) L [] hs
  · exact foldl_pres _ (fun d => t ∈ lookupD d key [])
      (fun d t' h => mem_lookupD_nGramAddToken_mono h) (pyTokens s') d h
  · exact foldl_estab (fun d t' => nGramAddToken minN d t')
      (fun d => t ∈ lookupD d key [])
      (fun d t' h => mem_lookupD_nGramAddToken_mono h) t he (pyTokens s) d ht

theorem mem_storeSets_right {old : Option (Dict (List String))}
    {new : Dict (List String)} {j x : String} (h : x ∈ lookupD new j []) :
    x ∈ lookupD (storeSets old new) j [] := by
  cases old with
  | none => exact h
  | some o => exact mem_mergeSets_right h

/-- **C8.**  For every training string `s` of the corpus and every token `t`
obtained from `s` by keeping alphanumerics and spaces, lowercasing, and
splitting on whitespace, `train_from_strings` records `t` in the PrefixIndex
under every prefix `t[:k]` with `min_n_gram_size ≤ k ≤ len(t)`, records `t`
under itself when `t` is shorter than the minimum, and records the lowercased
original string under `t` in the StringIndex. -/
theorem C8_train_records (cfg : Config) (c : Cache) (L : List String)
    (s t : String) (k : Nat) (hs : s ∈ L) (ht : t ∈ pyTokens s) :
    (cfg.min_n_gram_size ≤ k → k ≤ t.length →
      t ∈ lookupD (prefixIndex (train_from_strings cfg c L)) (strTake t k) []) ∧
    (t.length < cfg.min_n_gram_size →
      t ∈ lookupD (prefixIndex (train_from_strings cfg c L)) t []) ∧
    pyLower s ∈ lookupD (stringIndex (train_from_strings cfg c L)) t [] := by
  have hpi : prefixIndex (train_from_strings cfg c L) =
      storeSets c.n_gram_to_tokens (buildNGrams cfg.min_n_gram_size L) := rfl
  have hsi : stringIndex (train_from_strings cfg c L) =
      storeSets c.token_to_full_string (buildTFS L) := rfl
  refine ⟨fun h1 h2 => ?_, fun h => ?_, ?_⟩
  · rw [hpi]
    exact mem_storeSets_right
      (mem_buildNGrams_of_estab hs ht (fun d => mem_nGramAddToken_take h1 h2))
  · rw [hpi]
    exact mem_storeSets_right
      (mem_buildNGrams_of_estab hs ht (fun d => mem_nGramAddToken_self h))
  · rw [hsi]
    exact mem_storeSets_right (mem_buildTFS_iff.mpr ⟨s, hs, ht, rfl⟩)

/-- Witness for C8 at a concrete corpus: training on `["hey there"]` records
the token `"hey"` under its 2-prefix `"he"` and records the lowercased
string under `"hey"` in the StringIndex. -/
theorem C8_train_records_witness :
    "hey" ∈ lookupD (prefixIndex (train_from_strings defaultCfg emptyCache
        ["hey there"])) (strTake "hey" 2) [] ∧
    pyLower "hey there" ∈ lookupD (stringIndex (train_from_strings defaultCfg
        emptyCache ["hey there"])) "hey" [] := by
  have h := C8_train_records defaultCfg emptyCache ["hey there"] "hey there" "hey" 2
    (by decide) (by decide)
  exact ⟨h.1 (by decide) (by decide), h.2.2⟩

/-- **C6.**  Training is additive: training `L1` then `L2` on a fresh model
leaves the StringIndex (as a token → string-set map, compared by membership)
and the FrequencyIndex (token → count) with exactly the contents of a single
training on `L1 ++ L2`. -/
theorem C6_training_additive (cfg : Config) (L1 L2 : List String) :
    (∀ t x, x ∈ lookupD (stringIndex (train_from_strings cfg
        (train_from_strings cfg emptyCache L1) L2)) t [] ↔
      x ∈ lookupD (stringIndex (train_from_strings cfg emptyCache (L1 ++ L2))) t []) ∧
    (∀ t, lookupD (frequencyIndex (train_from_strings cfg
        (train_from_strings cfg emptyCache L1) L2)) t 0 =
      lookupD (frequencyIndex (train_from_strings cfg emptyCache (L1 ++ L2))) t 0) := by
  constructor
  · intro t x
    show x ∈ lookupD (mergeSets (buildTFS L1) (buildTFS L2)) t [] ↔
      x ∈ lookupD (buildTFS (L1 ++ L2)) t []
    rw [mem_mergeSets_iff (nodup_keys_buildTFS L2), mem_buildTFS_iff,
      mem_buildTFS_iff, mem_buildTFS_iff]
    constructor
    · rintro (⟨s, hs, h⟩ | ⟨s, hs, h⟩)
      · exact ⟨s, List.mem_append_left _ hs, h⟩
      · exact ⟨s, List.mem_append_right _ hs, h⟩
    · rintro ⟨s, hs, h⟩
      rcases List.mem_append.mp hs with hs | hs
      · exact Or.inl ⟨s, hs, h⟩
      · exact Or.inr ⟨s, hs, h⟩
  · intro t
    show lookupD (mergeCounts (buildCounter L1) (buildCounter L2)) t 0 =
      lookupD (buildCounter (L1 ++ L2)) t 0
    rw [lookupD_mergeCounts (nodup_keys_buildCounter L2), lookupD_buildCounter,
      lookupD_buildCounter, lookupD_buildCounter, List.flatMap_append,
      List.count_append]

theorem except_bind_ok {ε α β : Type} (a : α) (f : α → Except ε β) :
    (Except.ok a >>= f) = f a := rfl

theorem except_bind_err {ε α β : Type} (e : ε) (f : α → Except ε β) :
    ((Except.error e : Except ε α) >>= f) = Except.error e := rfl

theorem except_pure {ε α : Type} (a : α) : (pure a : Except ε α) = Except.ok a := rfl

theorem get_real_tokens_nil_of_no_hit {c : Cache} {dg : Dict (List String)}
    {tokens : List String} (hg : c.n_gram_to_tokens = some dg)
    (hnone : ∀ t ∈ tokens, lookupS dg t = none) :
    get_real_tokens c tokens = .ok [] := by
  unfold get_real_tokens
  induction tokens with
  | nil => rfl
  | cons t ts ih =>
    rw [List.foldlM_cons]
    have hget : get_tokens_for_n_gram c t (some []) = .ok (some []) := by
      unfold get_tokens_for_n_gram
      rw [hg]
      show Except.ok ((lookupS dg t).orElse (fun _ => some [])) = _
      rw [hnone t (List.mem_cons_self _ _)]
      rfl
    rw [show (do
        let r ← get_tokens_for_n_gram c t (some [])
        pure (([] : List String) ++ (r.getD []).filter (fun x => decide (x ∉ ([] : List String))))
          : Except Err (List String)) = .ok [] from by
      rw [hget, except_bind_ok]
      rfl]
    rw [except_bind_ok]
    exact ih (fun t' ht' => hnone t' (List.mem_cons_of_mem _ ht'))

theorem filtered_results_nil (cfg : Config) : filtered_results cfg [] = [] := by
  unfold filtered_results
  simp [exactMatchFiltered]

/-- **C7.**  On a trained model, `guess_full_strings` applied to a token list
none of whose tokens is a key of the prefix index — the empty list included —
returns `ok []`: in particular the division by the input-token count in
`_combined_scores` is never reached, so no `ZeroDivisionError` occurs. -/
theorem C7_no_hit_empty (cfg : Config) (c : Cache) (dg df : Dict (List String))
    (tokens : List String) (hg : c.n_gram_to_tokens = some dg)
    (_hf : c.token_to_full_string = some df)
    (hnone : ∀ t ∈ tokens, lookupS dg t = none) :
    guess_full_strings cfg c tokens = .ok [] := by
  have hreal := get_real_tokens_nil_of_no_hit hg hnone
  have hsc : sortedCandidates c tokens = .ok [] := by
    unfold sortedCandidates
    rw [hreal, except_bind_ok]
    rfl
  unfold guess_full_strings
  rw [hsc, except_bind_ok, except_pure, filtered_results_nil]

/-- Witness for C7: on the concretely trained `cache99`, a query whose only
token matches no prefix returns `ok []`. -/
theorem C7_no_hit_empty_witness :
    guess_full_strings defaultCfg cache99 ["zzz"] = .ok [] :=
  C7_no_hit_empty defaultCfg cache99 (prefixIndex cache99) (stringIndex cache99)
    ["zzz"] rfl rfl (by decide)

theorem guess_ok_elim {cfg : Config} {c : Cache} {tokens : List String}
    {r : List String} (h : guess_full_strings cfg c tokens = .ok r) :
    ∃ l, sortedCandidates c tokens = .ok l ∧ r = filtered_results cfg l := by
  unfold guess_full_strings at h
  cases hsc : sortedCandidates c tokens with
  | error e =>
    rw [hsc, except_bind_err] at h
    cases h
  | ok l =>
    rw [hsc, except_bind_ok, except_pure] at h
    injection h with h
    exact ⟨l, rfl, h.symm⟩

theorem filtered_results_length (cfg : Config) (l : List (String × Rat)) :
    (filtered_results cfg l).length ≤ cfg.max_results := by
  simp only [filtered_results]
  split
  · rw [List.length_map]
    exact List.length_take_le _ _
  · rw [List.length_map]
    have h1 := List.length_take cfg.max_results l
    have h2 := List.length_take cfg.min_results (l.take cfg.max_results)
    omega

/-- **C9.**  Whatever the configuration (including `min_results` greater than
`max_results`) and whatever the model and input, a list returned by
`guess_full_strings` has at most `max_results` entries. -/
theorem C9_max_results_bound (cfg : Config) (c : Cache) (tokens : List String)
    (r : List String) (h : guess_full_strings cfg c tokens = .ok r) :
    r.length ≤ cfg.max_results := by
  obtain ⟨l, _, hr⟩ := guess_ok_elim h
  rw [hr]
  exact filtered_results_length cfg l

/-- Witness for C9 at the concretely trained `cacheA`. -/
theorem C9_max_results_bound_witness :
    (["hello world", "hey there world", "hello commrades"] : List String).length ≤
      defaultCfg.max_results :=
  C9_max_results_bound defaultCfg cacheA ["hello", "world"]
    ["hello world", "hey there world", "hello commrades"] (by decide)

theorem not_mem_keys_of_lookupS_eq_none {β : Type} {d : Dict β} {k : String}
    (h : lookupS d k = none) : k ∉ keys d := by
  induction d with
  | nil => simp [keys]
  | cons p d ih =>
    obtain ⟨k', v⟩ := p
    rw [lookupS_cons] at h
    by_cases hk : k' = k
    · rw [if_pos hk] at h
      cases h
    · rw [if_neg hk] at h
      simp only [keys, List.map_cons, List.mem_cons, not_or]
      exact ⟨fun he => hk he.symm, ih h⟩

theorem keys_collapse_step (d : List (String × (Rat × Nat))) (p : String × Rat) :
    keys (d.map (fun q => if q.1 = p.1 then (q.1, (q.2.1 + p.2, q.2.2 + 1)) else q)) =
      keys d := by
  unfold keys
  rw [List.map_map]
  apply List.map_congr_left
  intro q _
  by_cases hq : q.1 = p.1 <;> simp [hq]

theorem nodup_keys_collapsePairs (pairs : List (String × Rat)) :
    (keys (collapsePairs pairs)).Nodup := by
  unfold collapsePairs
  refine foldl_pres _ (fun d => (keys d).Nodup) (fun d p h => ?_) pairs [] (by simp [keys])
  cases hl : lookupS d p.1 with
  | none =>
    simp only [hl]
    have hnm := not_mem_keys_of_lookupS_eq_none hl
    simp only [keys, List.map_append, List.map_cons, List.map_nil]
    rw [List.nodup_append]
    exact ⟨h, List.nodup_singleton _,
      fun a ha hb => hnm (by rwa [show a = p.1 from by simpa using hb] at ha)⟩
  | some v =>
    simp only [hl]
    rw [show (fun q : String × (Rat × Nat) =>
        if q.1 = p.1 then (q.1, (v.1 + p.2, v.2 + 1)) else q) =
      (fun q : String × (Rat × Nat) =>
        if q.1 = p.1 then (q.1, (v.1 + p.2, v.2 + 1)) else q) from rfl]
    have : keys (d.map (fun q : String × (Rat × Nat) =>
        if q.1 = p.1 then (q.1, (v.1 + p.2, v.2 + 1)) else q)) = keys d := by
      unfold keys
      rw [List.map_map]
      apply List.map_congr_left
      intro q _
      by_cases hq : q.1 = p.1 <;> simp [hq]
    rw [this]
    exact h

theorem keys_mapM_combined {n : Nat} :
    ∀ (l : List (String × (Rat × Nat))) (cl : List (String × Rat)),
      (l.mapM (fun p =>
        if n = 0 then Except.error Err.zeroDivision
        else pure (p.1, p.2.1 * ((p.2.2 : Rat) / (n : Rat)))) = .ok cl) →
      keys cl = keys l := by
  intro l
  induction l with
  | nil =>
    intro cl h
    rw [List.mapM_nil] at h
    injection h with h
    exact congrArg keys h.symm
  | cons p l ih =>
    intro cl h
    rw [List.mapM_cons] at h
    by_cases hn : n = 0
    · rw [if_pos hn] at h
      rw [except_bind_err] at h
      cases h
    · rw [if_neg hn] at h
      cases hrest : l.mapM (fun p =>
          if n = 0 then Except.error Err.zeroDivision
          else pure (p.1, p.2.1 * ((p.2.2 : Rat) / (n : Rat)))) with
      | error e =>
        rw [except_pure, except_bind_ok, hrest, except_bind_err] at h
        cases h
      | ok rest =>
        rw [except_pure, except_bind_ok, hrest, except_bind_ok, except_pure] at h
        injection h with h
        rw [← h]
        simp only [keys, List.map_cons]
        exact congrArg (fun ks => p.1 :: ks) (ih rest hrest)

theorem sortedCandidates_keys_nodup {c : Cache} {tokens : List String}
    {l : List (String × Rat)} (h : sortedCandidates c tokens = .ok l) :
    (keys l).Nodup := by
  unfold sortedCandidates at h
  cases h1 : get_real_tokens c tokens with
  | error e => rw [h1, except_bind_err] at h; cases h
  | ok real =>
    rw [h1, except_bind_ok] at h
    cases h2 : scored_uncollapsed c real with
    | error e => rw [h2, except_bind_err] at h; cases h
    | ok pairs =>
      rw [h2, except_bind_ok] at h
      cases h3 : combined_scores pairs tokens.length with
      | error e => rw [h3, except_bind_err] at h; cases h
      | ok cl =>
        rw [h3, except_bind_ok, except_pure] at h
        injection h with h
        have hkeys : keys cl = keys (collapsePairs pairs) :=
          keys_mapM_combined (collapsePairs pairs) cl h3
        have hnd : (keys cl).Nodup := by
          rw [hkeys]
          exact nodup_keys_collapsePairs pairs
        have hperm : List.Perm (List.insertionSort
            (fun a b : String × Rat => b.2 ≤ a.2) cl) cl :=
          List.perm_insertionSort _ cl
        rw [← h]
        exact (hperm.map Prod.fst).symm.nodup hnd

theorem exactMatchFiltered_sublist (l : List (String × Rat)) :
    List.Sublist (exactMatchFiltered l) l := by
  cases l with
  | nil => exact List.Sublist.refl _
  | cons p0 l =>
    show List.Sublist (if p0.2 = 1 then
      List.filter (fun p => decide (p0.1.length ≤ p.1.length)) (p0 :: l) else p0 :: l)
      (p0 :: l)
    by_cases h : p0.2 = 1
    · rw [if_pos h]
      exact List.filter_sublist _
    · rw [if_neg h]

theorem filtered_results_nodup {cfg : Config} {l : List (String × Rat)}
    (h : (keys l).Nodup) : (filtered_results cfg l).Nodup := by
  simp only [filtered_results]
  split
  · refine List.Nodup.sublist (List.Sublist.map Prod.fst ?_) h
    exact ((List.take_sublist _ _).trans (List.filter_sublist _)).trans
      (exactMatchFiltered_sublist l)
  · refine List.Nodup.sublist (List.Sublist.map Prod.fst ?_) h
    exact (List.take_sublist _ _).trans (List.take_sublist _ _)

/-- **C10.**  A list returned by `guess_full_strings` has no duplicate
entries: scores are aggregated per distinct source string before sorting and
filtering, so each source string appears at most once. -/
theorem C10_result_nodup (cfg : Config) (c : Cache) (tokens : List String)
    (r : List String) (h : guess_full_strings cfg c tokens = .ok r) : r.Nodup := by
  obtain ⟨l, hsc, hr⟩ := guess_ok_elim h
  rw [hr]
  exact filtered_results_nodup (sortedCandidates_keys_nodup hsc)

/-- Witness for C10 at the concretely trained `cacheA`. -/
theorem C10_result_nodup_witness :
    (["hello world", "hey there world", "hello commrades"] : List String).Nodup :=
  C10_result_nodup defaultCfg cacheA ["hello", "world"]
    ["hello world", "hey there world", "hello commrades"] (by decide)

/-- Counterexample to **C1** as stated: on the spec's scenario corpus
(`corpusA`, which contains `"hello world"`), `guess_full_strings` does not
return `["hey there world", "hello commrades"]` — the claimed output belongs
to the test suite's different corpus. -/
theorem C1_counterexample :
    guess_full_strings defaultCfg cacheA ["hello", "world"] ≠
      .ok ["hey there world", "hello commrades"] := by decide

/-- **C1 (amended).**  On `corpusA`, `guess_full_strings(["hello","world"])`
returns exactly `["hello world", "hey there world", "hello commrades"]`,
highest aggregated score first (`"hello world"` scores exactly 1). -/
theorem C1_scenario_b :
    guess_full_strings defaultCfg cacheA ["hello", "world"] =
      .ok ["hello world", "hey there world", "hello commrades"] := by decide

/-- **C3 (code bug evidence).**  On a never-trained cache,
`get_counts_for_tokens` raises a bare `KeyError`, not `RequiresTraining`
(unlike `get_count_for_token` and the other accessors), and on a model whose
training stored an *empty* frequency dict it raises `RequiresTraining` even
though the collection was populated by training. -/
theorem C3_get_counts_bug :
    get_counts_for_tokens emptyCache ["a"] = .error Err.keyError ∧
    get_count_for_token emptyCache "a" = .error Err.requiresTraining ∧
    get_tokens_for_n_gram emptyCache "a" none = .error Err.requiresTraining ∧
    get_full_strings_for_token emptyCache "a" none = .error Err.requiresTraining ∧
    get_counts_for_tokens cache99 ["a"] = .error Err.requiresTraining := by decide

/-- **C2 (amended).**  The returned list is obtained from the score-sorted
candidate list `l` as follows: count, after the exact-match length filter,
the candidates with score at least `score_threshold`; if more than
`min_results` pass, return the first up-to-`max_results` passing entries,
otherwise return the unfiltered list truncated to `max_results` and then to
`min_results` — which yields fewer than `min_results` entries whenever fewer
candidates exist. -/
theorem C2_filter_rule (cfg : Config) (c : Cache) (tokens : List String)
    (l : List (String × Rat)) (h : sortedCandidates c tokens = .ok l) :
    guess_full_strings cfg c tokens = .ok
      ((if cfg.min_results <
          ((exactMatchFiltered l).filter
            (fun p => decide (cfg.score_threshold ≤ p.2))).length
        then ((exactMatchFiltered l).filter
          (fun p => decide (cfg.score_threshold ≤ p.2))).take cfg.max_results
        else (l.take cfg.max_results).take cfg.min_results).map Prod.fst) := by
  unfold guess_full_strings
  rw [h, except_bind_ok, except_pure]
  rfl

/-- Witness for C2 (amended) at the concretely trained `cacheA`. -/
theorem C2_filter_rule_witness :
    guess_full_strings defaultCfg cacheA ["hello", "world"] = .ok
      ((if defaultCfg.min_results <
          ((exactMatchFiltered [("hello world", (1 : Rat)),
              ("hey there world", 5/26), ("hello commrades", 5/28)]).filter
            (fun p => decide (defaultCfg.score_threshold ≤ p.2))).length
        then ((exactMatchFiltered [("hello world", (1 : Rat)),
            ("hey there world", 5/26), ("hello commrades", 5/28)]).filter
          (fun p => decide (defaultCfg.score_threshold ≤ p.2))).take
            defaultCfg.max_results
        else (([("hello world", (1 : Rat)), ("hey there world", 5/26),
            ("hello commrades", 5/28)]).take defaultCfg.max_results).take
            defaultCfg.min_results).map Prod.fst) :=
  C2_filter_rule defaultCfg cacheA ["hello", "world"]
    [("hello world", (1 : Rat)), ("hey there world", 5/26), ("hello commrades", 5/28)]
    (by decide)

/-- Counterexample to **C2** as stated: on `cacheA` with input
`["hello", "world"]` only one aggregated candidate reaches the threshold
(not more than `min_results = 5`), yet `guess_full_strings` returns 3
entries, not exactly `min_results`. -/
theorem C2_counterexample :
    sortedCandidates cacheA ["hello", "world"] = .ok
      [("hello world", (1 : Rat)), ("hey there world", 5/26), ("hello commrades", 5/28)] ∧
    ¬ defaultCfg.min_results <
      (([("hello world", (1 : Rat)), ("hey there world", 5/26),
          ("hello commrades", 5/28)]).filter
        (fun p => decide (defaultCfg.score_threshold ≤ p.2))).length ∧
    guess_full_strings defaultCfg cacheA ["hello", "world"] =
      .ok ["hello world", "hey there world", "hello commrades"] ∧
    (["hello world", "hey there world", "hello commrades"] : List String).length ≠
      defaultCfg.min_results := by decide

/-- Counterexample to **C5** as stated: substituting a character of `w` by
the same alphabet letter reproduces `w` itself, so `_possible_typos("a")`
contains `"a"`, which is at edit distance 0, not exactly 1. -/
theorem C5_counterexample :
    "a" ∈ possible_typos "a" ∧ ¬ EditDistExactlyOne "a" "a" :=
  ⟨by decide, fun hc => hc.2 rfl⟩

theorem mem_typoSplits {w : List Char} {p : List Char × List Char}
    (h : p ∈ typoSplits w) : ∃ i, i ≤ w.length ∧ p = (w.take i, w.drop i) := by
  unfold typoSplits at h
  rw [List.mem_map] at h
  obtain ⟨i, hi, rfl⟩ := h
  rw [List.mem_range] at hi
  exact ⟨i, by omega, rfl⟩

theorem possible_typos_chars_ops {w cs : List Char}
    (h : cs ∈ possible_typos_chars w) :
    IsDeleteOf w cs ∨ IsTransposeOf w cs ∨ IsReplaceOf w cs ∨ IsInsertOf w cs := by
  unfold possible_typos_chars at h
  simp only [List.mem_append] at h
  rcases h with ((h | h) | h) | h
  · rw [List.mem_filterMap] at h
    obtain ⟨p, hp, hf⟩ := h
    obtain ⟨i, _, rfl⟩ := mem_typoSplits hp
    cases hd : w.drop i with
    | nil => rw [hd] at hf; cases hf
    | cons c bs =>
      rw [hd] at hf
      injection hf with hf
      refine Or.inl ⟨w.take i, c, bs, ?_, hf.symm⟩
      rw [← hd, List.take_append_drop]
  · rw [List.mem_filterMap] at h
    obtain ⟨p, hp, hf⟩ := h
    obtain ⟨i, _, rfl⟩ := mem_typoSplits hp
    cases hd : w.drop i with
    | nil => rw [hd] at hf; cases hf
    | cons b0 bs' =>
      cases hd2 : bs' with
      | nil => rw [hd, hd2] at hf; cases hf
      | cons b1 bs =>
        rw [hd, hd2] at hf
        injection hf with hf
        refine Or.inr (Or.inl ⟨w.take i, b0, b1, bs, ?_, hf.symm⟩)
        rw [← hd2, ← hd, List.take_append_drop]
  · rw [List.mem_flatMap] at h
    obtain ⟨p, hp, hmem⟩ := h
    obtain ⟨i, _, rfl⟩ := mem_typoSplits hp
    cases hd : w.drop i with
    | nil => rw [hd] at hmem; cases hmem
    | cons c0 bs =>
      rw [hd, List.mem_map] at hmem
      obtain ⟨ch, hch, rfl⟩ := hmem
      refine Or.inr (Or.inr (Or.inl ⟨w.take i, c0, ch, bs, ?_, rfl, hch⟩))
      rw [← hd, List.take_append_drop]
  · rw [List.mem_flatMap] at h
    obtain ⟨p, hp, hmem⟩ := h
    obtain ⟨i, _, rfl⟩ := mem_typoSplits hp
    rw [List.mem_map] at hmem
    obtain ⟨ch, hch, rfl⟩ := hmem
    exact Or.inr (Or.inr (Or.inr ⟨w.take i, ch, w.drop i,
      (List.take_append_drop _ _).symm, rfl, hch⟩))

/-- **C5 (amended).**  Every string produced by `_possible_typos(w)` arises
from `w` by one of the four operations — single deletion, adjacent
transposition, single substitution over the 26-letter alphabet, or single
insertion over that alphabet — i.e. is at edit distance at most 1 (the
substitution may be trivial, reproducing `w` itself). -/
theorem C5_one_edit_op (w s : String) (h : s ∈ possible_typos w) :
    OneEditOp w s := by
  unfold possible_typos at h
  rw [List.mem_dedup, List.mem_map] at h
  obtain ⟨cs, hcs, rfl⟩ := h
  exact possible_typos_chars_ops hcs

set_option maxRecDepth 8000 in
/-- Witness for C5 (amended): `"b" ∈ _possible_typos("ab")` is one edit
operation away from `"ab"`. -/
theorem C5_one_edit_op_witness : OneEditOp "ab" "b" :=
  C5_one_edit_op "ab" "b" (by decide)

theorem words_that_exist_eq {c : Cache} {d : Dict Nat}
    (hc : c.token_to_count = some d) (ws : List String) :
    words_that_exist c ws = .ok (ws.filter (fun w => decide (lookupD d w 0 ≠ 0))) := by
  induction ws with
  | nil => rfl
  | cons w ws ih =>
    have hget : get_count_for_token c w = .ok (lookupD d w 0) := by
      simp [get_count_for_token, hc]
    simp only [words_that_exist]
    rw [hget]
    simp only [except_bind_ok]
    rw [ih]
    simp only [except_bind_ok, except_pure, List.filter_cons]
    by_cases hw : lookupD d w 0 ≠ 0
    · simp [hw]
    · simp [hw]

theorem lookupS_map_self {l : List String} {a : String} (f : String → Nat)
    (h : a ∈ l) : lookupS (l.map (fun x => (x, f x))) a = some (f a) := by
  induction l with
  | nil => cases h
  | cons x l ih =>
    rw [List.map_cons, lookupS_cons]
    by_cases hx : x = a
    · rw [if_pos hx, hx]
    · rw [if_neg hx]
      rcases List.mem_cons.mp h with rfl | h
      · exact absurd rfl hx
      · exact ih h

theorem isEmpty_eq_false_of_ne_nil {α : Type} {l : List α} (h : l ≠ []) :
    l.isEmpty = false := by
  cases l with
  | nil => exact absurd rfl h
  | cons a l => rfl

theorem extended_typos_eq {cfg : Config} {c : Cache} {d : Dict Nat}
    (hc : c.token_to_count = some d) (hne : d ≠ []) (w : String) :
    extended_typos cfg c w = .ok ((allDeviations cfg.typo_deviations w).filter
      (fun dev => decide (lookupD d dev 0 ≠ 0))) := by
  have hget : get_counts_for_tokens c (allDeviations cfg.typo_deviations w) =
      .ok ((allDeviations cfg.typo_deviations w).map (fun t => (t, lookupD d t 0))) := by
    simp only [get_counts_for_tokens, hc]
    rw [isEmpty_eq_false_of_ne_nil hne]
    rfl
  simp only [extended_typos]
  rw [hget]
  simp only [except_bind_ok, except_pure]
  congr 1
  apply List.filter_congr
  intro dev hdev
  rw [lookupD, lookupS_map_self (fun t => lookupD d t 0) hdev]
  rfl

theorem foldl_max_spec (key : String → Nat) (xs : List String) :
    ∀ b : String,
      (xs.foldl (fun best y => if key best < key y then y else best) b = b ∨
        xs.foldl (fun best y => if key best < key y then y else best) b ∈ xs) ∧
      key b ≤ key (xs.foldl (fun best y => if key best < key y then y else best) b) ∧
      ∀ y ∈ xs, key y ≤ key (xs.foldl (fun best y => if key best < key y then y else best) b) := by
  induction xs with
  | nil =>
    intro b
    exact ⟨Or.inl rfl, le_refl _, by simp⟩
  | cons y xs ih =>
    intro b
    rw [List.foldl_cons]
    by_cases h : key b < key y
    · rw [if_pos h]
      obtain ⟨hmem, hle, hall⟩ := ih y
      refine ⟨?_, le_trans (Nat.le_of_lt h) hle, ?_⟩
      · rcases hmem with hm | hm
        · exact Or.inr (by rw [hm]; exact List.mem_cons_self _ _)
        · exact Or.inr (List.mem_cons_of_mem _ hm)
      · intro z hz
        rcases List.mem_cons.mp hz with rfl | hz
        · exact hle
        · exact hall z hz
    · rw [if_neg h]
      obtain ⟨hmem, hle, hall⟩ := ih b
      refine ⟨?_, hle, ?_⟩
      · rcases hmem with hm | hm
        · exact Or.inl hm
        · exact Or.inr (List.mem_cons_of_mem _ hm)
      · intro z hz
        rcases List.mem_cons.mp hz with rfl | hz
        · exact le_trans (Nat.le_of_not_lt h) hle
        · exact hall z hz

theorem pyMaxBy_spec {key : String → Nat} {l : List String} {x : String}
    (h : pyMaxBy key l = some x) : x ∈ l ∧ ∀ y ∈ l, key y ≤ key x := by
  cases l with
  | nil => cases h
  | cons a l =>
    simp only [pyMaxBy] at h
    injection h with h
    obtain ⟨hmem, hb, hall⟩ := foldl_max_spec key l a
    subst h
    refine ⟨?_, fun y hy => ?_⟩
    · rcases hmem with hm | hm
      · rw [hm]; exact List.mem_cons_self _ _
      · exact List.mem_cons_of_mem _ hm
    · rcases List.mem_cons.mp hy with rfl | hy
      · exact hb
      · exact hall y hy

theorem pyMaxBy_isSome {key : String → Nat} {l : List String} (h : l ≠ []) :
    ∃ m, pyMaxBy key l = some m := by
  cases l with
  | nil => exact absurd rfl h
  | cons a l => exact ⟨_, rfl⟩

set_option maxRecDepth 8000 in
/-- Counterexample to **C4** as stated: `cache99` is a trained model (trained
on `["99"]`, whose frequency index is stored but empty because the corpus has
no alphabetic word); on it, `correct_token "x"` reaches the multi-round stage
and raises `RequiresTraining` instead of returning `"x"` unchanged. -/
theorem C4_counterexample :
    correct_token defaultCfg cache99 "x" = .error Err.requiresTraining := by decide

/-- **C4 (amended).**  On a trained model whose frequency index is nonempty,
`correct_token` lowercases its input; if the lowercased token is a key of the
prefix index it is returned unchanged; otherwise the result is a
highest-frequency element of the first nonempty stage among: the token itself
at nonzero frequency, its `_possible_typos` at nonzero frequency, the
accumulated multi-round frontier at nonzero frequency, and the fallback
`[token]` (returning the token unchanged when no candidate survives). -/
theorem C4_correct_token (cfg : Config) (c : Cache) (dg : Dict (List String))
    (d : Dict Nat) (hg : c.n_gram_to_tokens = some dg)
    (hc : c.token_to_count = some d) (hne : d ≠ []) (token : String) :
    ∃ r, correct_token cfg c token = .ok r ∧
      ((lookupS dg (pyLower token)).isSome = true → r = pyLower token) ∧
      ((lookupS dg (pyLower token)).isSome = false →
        r ∈ c4Cands cfg d (pyLower token) ∧
        ∀ w ∈ c4Cands cfg d (pyLower token), lookupD d w 0 ≤ lookupD d r 0) := by
  have hget : get_tokens_for_n_gram c (pyLower token) none =
      .ok (lookupS dg (pyLower token)) := by
    simp only [get_tokens_for_n_gram, hg]
    cases lookupS dg (pyLower token) <;> rfl
  simp only [correct_token]
  rw [hget]
  simp only [except_bind_ok]
  by_cases hin : (lookupS dg (pyLower token)).isSome = true
  · rw [if_pos hin]
    exact ⟨pyLower token, rfl, fun _ => rfl,
      fun hf => Bool.noConfusion (hin.symm.trans hf)⟩
  · rw [if_neg hin]
    have hin' : (lookupS dg (pyLower token)).isSome = false :=
      Bool.eq_false_iff.mpr hin
    rw [words_that_exist_eq hc]
    simp only [except_bind_ok]
    by_cases h1 : c4Stage1 d (pyLower token) ≠ []
    · rw [if_pos (show ([pyLower token].filter
          (fun w => decide (lookupD d w 0 ≠ 0))) ≠ [] from h1)]
      simp only [except_bind_ok, except_pure, hc]
      obtain ⟨m, hm⟩ := @pyMaxBy_isSome (fun w => lookupD d w 0) _ h1
      obtain ⟨hmem, hmax⟩ := pyMaxBy_spec hm
      refine ⟨m, ?_, fun hf => Bool.noConfusion (hf.symm.trans hin'),
        fun _ => ?_⟩
      · show Except.ok ((pyMaxBy (fun w => lookupD d w 0)
          ([pyLower token].filter (fun w => decide (lookupD d w 0 ≠ 0)))).getD
            (pyLower token)) = .ok m
        rw [show pyMaxBy (fun w => lookupD d w 0)
          ([pyLower token].filter (fun w => decide (lookupD d w 0 ≠ 0))) =
            some m from hm]
        rfl
      · rw [c4Cands, if_pos h1]
        exact ⟨hmem, hmax⟩
    · rw [if_neg (show ¬ ([pyLower token].filter
          (fun w => decide (lookupD d w 0 ≠ 0))) ≠ [] from h1)]
      rw [words_that_exist_eq hc]
      simp only [except_bind_ok]
      by_cases h2 : c4Stage2 d (pyLower token) ≠ []
      · rw [if_pos (show ((possible_typos (pyLower token)).filter
            (fun w => decide (lookupD d w 0 ≠ 0))) ≠ [] from h2)]
        simp only [except_bind_ok, except_pure, hc]
        obtain ⟨m, hm⟩ := @pyMaxBy_isSome (fun w => lookupD d w 0) _ h2
        obtain ⟨hmem, hmax⟩ := pyMaxBy_spec hm
        refine ⟨m, ?_, fun hf => Bool.noConfusion (hf.symm.trans hin'),
          fun _ => ?_⟩
        · show Except.ok ((pyMaxBy (fun w => lookupD d w 0)
            ((possible_typos (pyLower token)).filter
              (fun w => decide (lookupD d w 0 ≠ 0)))).getD (pyLower token)) = .ok m
          rw [show pyMaxBy (fun w => lookupD d w 0)
            ((possible_typos (pyLower token)).filter
              (fun w => decide (lookupD d w 0 ≠ 0))) = some m from hm]
          rfl
        · rw [c4Cands, if_neg h1, if_pos h2]
          exact ⟨hmem, hmax⟩
      · rw [if_neg (show ¬ ((possible_typos (pyLower token)).filter
            (fun w => decide (lookupD d w 0 ≠ 0))) ≠ [] from h2)]
        rw [extended_typos_eq hc hne]
        simp only [except_bind_ok]
        by_cases h3 : c4Stage3 cfg d (pyLower token) ≠ []
        · rw [if_pos (show ((allDeviations cfg.typo_deviations (pyLower token)).filter
              (fun w => decide (lookupD d w 0 ≠ 0))) ≠ [] from h3)]
          simp only [except_bind_ok, except_pure, hc]
          obtain ⟨m, hm⟩ := @pyMaxBy_isSome (fun w => lookupD d w 0) _ h3
          obtain ⟨hmem, hmax⟩ := pyMaxBy_spec hm
          refine ⟨m, ?_, fun hf => Bool.noConfusion (hf.symm.trans hin'),
            fun _ => ?_⟩
          · show Except.ok ((pyMaxBy (fun w => lookupD d w 0)
              ((allDeviations cfg.typo_deviations (pyLower token)).filter
                (fun w => decide (lookupD d w 0 ≠ 0)))).getD (pyLower token)) = .ok m
            rw [show pyMaxBy (fun w => lookupD d w 0)
              ((allDeviations cfg.typo_deviations (pyLower token)).filter
                (fun w => decide (lookupD d w 0 ≠ 0))) = some m from hm]
            rfl
          · rw [c4Cands, if_neg h1, if_neg h2, if_pos h3]
            exact ⟨hmem, hmax⟩
        · rw [if_neg (show ¬ ((allDeviations cfg.typo_deviations (pyLower token)).filter
              (fun w => decide (lookupD d w 0 ≠ 0))) ≠ [] from h3)]
          simp only [except_bind_ok, except_pure, hc]
          refine ⟨pyLower token, rfl,
            fun hf => Bool.noConfusion (hf.symm.trans hin'), fun _ => ?_⟩
          rw [c4Cands, if_neg h1, if_neg h2, if_neg h3]
          exact ⟨List.mem_cons_self _ _, fun w hw => by
            rcases List.mem_cons.mp hw with rfl | hw
            · exact le_refl _
            · cases hw⟩

/-- Witness for C4 (amended) at the concretely trained `cacheA`, token
`"hye"`. -/
theorem C4_correct_token_witness :
    ∃ r, correct_token defaultCfg cacheA "hye" = .ok r ∧
      ((lookupS dictNGramsA (pyLower "hye")).isSome = true →
        r = pyLower "hye") ∧
      ((lookupS dictNGramsA (pyLower "hye")).isSome = false →
        r ∈ c4Cands defaultCfg dictCountsA (pyLower "hye") ∧
        ∀ w ∈ c4Cands defaultCfg dictCountsA (pyLower "hye"),
          lookupD dictCountsA w 0 ≤ lookupD dictCountsA r 0) :=
  C4_correct_token defaultCfg cacheA dictNGramsA dictCountsA
    rfl rfl (by decide) "hye"

end Finisher
